import Mathlib

/-!
Verification development for the tile-document container reader
(`src-tauri/src/car.rs` and `src-tauri/src/lib.rs`).

The Rust sources are shallowly embedded: buffers are `List Nat` (each
element a byte value), `u64`/`usize` arithmetic is `Nat` with an explicit
`% 2 ^ 64` exactly where the machine arithmetic can wrap (release-mode
Rust semantics; the spots where a debug build would panic instead are
noted inline), fallible code returns `Option` or `Except String`, and
`HashMap` is an association list with insert-replaces-existing semantics
(only lookup and insert are ever used by the source).

External collaborators of the repository (the `ciborium` CBOR decoder,
the `cid`/`multihash`/`unsigned-varint` crates and the filesystem) are
modelled by executable Lean definitions of their documented behaviour;
each such definition carries a comment saying what it models.  All
definitions taken from the repository itself follow the Rust line by
line.
-/

namespace TileSpec

/-! ## Varint decoding (`read_uvarint`, car.rs lines 280-294) -/

/-- Loop body of `read_uvarint`.  Mirrors the Rust loop: `value` and
`shift` are the mutable locals, `consumed` counts `i + 1`.  The Rust
`((byte & 0x7f) as u64) << shift` silently drops bits shifted above
bit 63, hence the `% 2 ^ 64` on the shifted summand. -/
def readUvarintAux : List Nat → Nat → Nat → Nat → Option (Nat × Nat)
  | [], _, _, _ => none
  | b :: rest, value, shift, consumed =>
    let value := value ||| ((b &&& 0x7f) <<< shift % 2 ^ 64)
    if b &&& 0x80 = 0 then some (value, consumed + 1)
    else if shift + 7 ≥ 64 then none
    else readUvarintAux rest value (shift + 7) (consumed + 1)

/-- Embedding of `read_uvarint` (car.rs): decode an unsigned LEB128
varint, returning `(value, bytes_consumed)`. -/
def read_uvarint (data : List Nat) : Option (Nat × Nat) :=
  readUvarintAux data 0 0 0

/-- Fuel-driven worker for `leb128`. -/
def leb128F : Nat → Nat → List Nat
  | 0, _ => []
  | fuel + 1, n => if n < 128 then [n] else (n % 128 + 128) :: leb128F fuel (n / 128)

/-- The standard unsigned LEB128 encoding of a natural number (the
spec's "byte sequences produced by encoding a valid unsigned integer as
LEB128"): low 7 bits first, continuation bit on every byte but the
last.  `n + 1` units of fuel always suffice since the argument shrinks
by a factor of 128 each step. -/
def leb128 (n : Nat) : List Nat :=
  leb128F (n + 1) n

/-! ## CBOR values and decoding

Models the `ciborium` crate (an external dependency): `ciborium::value::Value`
restricted to the shapes the header extractor consumes.  `Float` and
indefinite-length encodings are not modelled (the model decoder rejects
them); no theorem below relies on an input the model rejects being
accepted or rejected by `ciborium`. -/

/-- Model of `ciborium::value::Value`.  `Boolean` models `Value::Bool`;
maps are ordered lists of pairs, duplicates preserved, exactly as in
`ciborium`. -/
inductive CborValue : Type
  | Integer : Int → CborValue
  | Bytes : List Nat → CborValue
  | Text : String → CborValue
  | Boolean : Bool → CborValue
  | Null : CborValue
  | Tag : Nat → CborValue → CborValue
  | Array : List CborValue → CborValue
  | Map : List (CborValue × CborValue) → CborValue

/-- Continuation-byte test for UTF-8 decoding. -/
def utf8Cont (b : Nat) : Prop := 0x80 ≤ b ∧ b ≤ 0xBF

instance (b : Nat) : Decidable (utf8Cont b) := by unfold utf8Cont; infer_instance

/-- Second-byte constraint of a three-byte UTF-8 sequence (rejects
overlong encodings and surrogates, as Rust `String` validation does). -/
def utf8Cont2 (b1 b2 : Nat) : Prop :=
  (b1 = 0xE0 ∧ 0xA0 ≤ b2 ∧ b2 ≤ 0xBF) ∨ (b1 = 0xED ∧ 0x80 ≤ b2 ∧ b2 ≤ 0x9F) ∨
    (b1 ≠ 0xE0 ∧ b1 ≠ 0xED ∧ utf8Cont b2)

instance (b1 b2 : Nat) : Decidable (utf8Cont2 b1 b2) := by unfold utf8Cont2; infer_instance

/-- Second-byte constraint of a four-byte UTF-8 sequence. -/
def utf8Cont3 (b1 b2 : Nat) : Prop :=
  (b1 = 0xF0 ∧ 0x90 ≤ b2 ∧ b2 ≤ 0xBF) ∨ (b1 = 0xF4 ∧ 0x80 ≤ b2 ∧ b2 ≤ 0x8F) ∨
    (b1 ≠ 0xF0 ∧ b1 ≠ 0xF4 ∧ utf8Cont b2)

instance (b1 b2 : Nat) : Decidable (utf8Cont3 b1 b2) := by unfold utf8Cont3; infer_instance

/-- Standard UTF-8 decoder (models the validation Rust strings get when
`ciborium` decodes a text item). -/
def utf8DecodeAux : List Nat → Option (List Char)
  | [] => some []
  | b1 :: rest =>
    if b1 < 0x80 then
      (utf8DecodeAux rest).map (fun cs => Char.ofNat b1 :: cs)
    else if 0xC2 ≤ b1 ∧ b1 ≤ 0xDF then
      match rest with
      | b2 :: rest2 =>
        if utf8Cont b2 then
          (utf8DecodeAux rest2).map
            (fun cs => Char.ofNat ((b1 - 0xC0) * 0x40 + (b2 - 0x80)) :: cs)
        else none
      | [] => none
    else if 0xE0 ≤ b1 ∧ b1 ≤ 0xEF then
      match rest with
      | b2 :: b3 :: rest3 =>
        if utf8Cont2 b1 b2 ∧ utf8Cont b3 then
          (utf8DecodeAux rest3).map
            (fun cs =>
              Char.ofNat ((b1 - 0xE0) * 0x1000 + (b2 - 0x80) * 0x40 + (b3 - 0x80)) :: cs)
        else none
      | _ => none
    else if 0xF0 ≤ b1 ∧ b1 ≤ 0xF4 then
      match rest with
      | b2 :: b3 :: b4 :: rest4 =>
        if utf8Cont3 b1 b2 ∧ utf8Cont b3 ∧ utf8Cont b4 then
          (utf8DecodeAux rest4).map
            (fun cs =>
              Char.ofNat
                ((b1 - 0xF0) * 0x40000 + (b2 - 0x80) * 0x1000 + (b3 - 0x80) * 0x40 +
                  (b4 - 0x80)) :: cs)
        else none
      | _ => none
    else none

/-- Decode a byte list as a UTF-8 string. -/
def utf8Decode (bytes : List Nat) : Option String :=
  (utf8DecodeAux bytes).map String.mk

/-- Read the argument of a CBOR head byte: `info` below 24 is the value
itself, 24/25/26/27 read a 1/2/4/8-byte big-endian value.  Indefinite
lengths (31) and reserved values are rejected (model restriction). -/
def cborArg (info : Nat) (rest : List Nat) : Option (Nat × List Nat) :=
  if info < 24 then some (info, rest)
  else if info = 24 then
    match rest with
    | b :: r => some (b, r)
    | [] => none
  else if info = 25 then
    match rest with
    | b1 :: b2 :: r => some (b1 * 256 + b2, r)
    | _ => none
  else if info = 26 then
    match rest with
    | b1 :: b2 :: b3 :: b4 :: r => some (((b1 * 256 + b2) * 256 + b3) * 256 + b4, r)
    | _ => none
  else if info = 27 then
    match rest with
    | b1 :: b2 :: b3 :: b4 :: b5 :: b6 :: b7 :: b8 :: r =>
      some ((((((((b1 * 256 + b2) * 256 + b3) * 256 + b4) * 256 + b5) * 256 + b6) * 256
        + b7) * 256 + b8), r)
    | _ => none
  else none

/-- Decode a run of `n` CBOR items using `recur` for each one. -/
def cborItemsLoop (recur : List Nat → Option (CborValue × List Nat)) :
    Nat → List Nat → Option (List CborValue × List Nat)
  | 0, r => some ([], r)
  | n + 1, r =>
    match recur r with
    | some (v, r2) =>
      match cborItemsLoop recur n r2 with
      | some (vs, r3) => some (v :: vs, r3)
      | none => none
    | none => none

/-- Decode a run of `n` CBOR key/value pairs using `recur`. -/
def cborPairsLoop (recur : List Nat → Option (CborValue × List Nat)) :
    Nat → List Nat → Option (List (CborValue × CborValue) × List Nat)
  | 0, r => some ([], r)
  | n + 1, r =>
    match recur r with
    | some (k, r2) =>
      match recur r2 with
      | some (v, r3) =>
        match cborPairsLoop recur n r3 with
        | some (kvs, r4) => some ((k, v) :: kvs, r4)
        | none => none
      | none => none
    | none => none

/-- One layer of the CBOR decoder: decodes the item at the front of
`data`, using `recur` for nested items. -/
def cborBody (recur : List Nat → Option (CborValue × List Nat)) :
    List Nat → Option (CborValue × List Nat)
  | [] => none
  | b :: rest =>
    let major := b / 32
    let info := b % 32
    if major = 0 then (cborArg info rest).map (fun p => (CborValue.Integer (Int.ofNat p.1), p.2))
    else if major = 1 then
      (cborArg info rest).map (fun p => (CborValue.Integer (-1 - Int.ofNat p.1), p.2))
    else if major = 2 then
      match cborArg info rest with
      | some (n, r) => if n ≤ r.length then some (CborValue.Bytes (r.take n), r.drop n) else none
      | none => none
    else if major = 3 then
      match cborArg info rest with
      | some (n, r) =>
        if n ≤ r.length then
          match utf8Decode (r.take n) with
          | some s => some (CborValue.Text s, r.drop n)
          | none => none
        else none
      | none => none
    else if major = 4 then
      match cborArg info rest with
      | some (n, r) =>
        match cborItemsLoop recur n r with
        | some (vs, r2) => some (CborValue.Array vs, r2)
        | none => none
      | none => none
    else if major = 5 then
      match cborArg info rest with
      | some (n, r) =>
        match cborPairsLoop recur n r with
        | some (kvs, r2) => some (CborValue.Map kvs, r2)
        | none => none
      | none => none
    else if major = 6 then
      match cborArg info rest with
      | some (t, r) =>
        match recur r with
        | some (v, r2) => some (CborValue.Tag t v, r2)
        | none => none
      | none => none
    else
      if info = 20 then some (CborValue.Boolean false, rest)
      else if info = 21 then some (CborValue.Boolean true, rest)
      else if info = 22 then some (CborValue.Null, rest)
      else none

/-- Fuel-indexed CBOR item decoder; the fuel bounds the nesting depth,
one byte of input per level is ample. -/
def cborDecodeVal : Nat → List Nat → Option (CborValue × List Nat)
  | 0, _ => none
  | fuel + 1, data => cborBody (cborDecodeVal fuel) data

/-- Model of `ciborium::de::from_reader` for `Value`: decode one item
from the front of the buffer; trailing bytes are left unread, exactly
as a reader-based deserializer does. -/
def cborDecode (data : List Nat) : Option CborValue :=
  (cborDecodeVal (data.length + 1) data).map Prod.fst

/-! ## Content identifiers

Models the `cid` / `multihash` / `unsigned-varint` crates (external
dependencies of the repository), as used by `parse_cid_from_slice`,
`cid_byte_length` and `Cid::try_from` in car.rs. -/

/-- Model of a parsed `Cid`: version, codec, multihash code and digest
(the digest length is the list length). -/
structure Cid where
  version : Nat
  codec : Nat
  mhCode : Nat
  mhDigest : List Nat
deriving DecidableEq

/-- Loop of the `unsigned-varint` crate's `u64` decoder: at most ten
groups, the value truncated to 64 bits, a trailing zero group rejected
as non-minimal. -/
def mfVarintAux : List Nat → Nat → Nat → Option (Nat × Nat)
  | [], _, _ => none
  | b :: rest, i, n =>
    let n := n ||| ((b &&& 0x7f) <<< (i * 7) % 2 ^ 64)
    if b &&& 0x80 = 0 then
      if b &&& 0x7f = 0 ∧ 0 < i then none else some (n, i + 1)
    else if i = 9 then none
    else mfVarintAux rest (i + 1) n

/-- Model of `unsigned_varint::decode::u64` (used by the `cid` and
`multihash` crates): returns `(value, bytes_consumed)`. -/
def mfVarint (data : List Nat) : Option (Nat × Nat) :=
  mfVarintAux data 0 0

/-- Model of `Cid::read_bytes` (and so of `parse_cid_from_slice` plus
`cid_byte_length`, car.rs lines 297-307, which both just run it on the
front of a slice): read two varints; `0x12 0x20` means a CIDv0 whose
multihash is sha2-256 with a 32-byte digest and codec dag-pb; version 1
reads a multihash (code, size ≤ 64, digest); anything else fails.
Returns the identifier and the number of bytes it occupied. -/
def cidReadBytes (data : List Nat) : Option (Cid × Nat) :=
  match mfVarint data with
  | none => none
  | some (version, n1) =>
    match mfVarint (data.drop n1) with
    | none => none
    | some (codec, n2) =>
      if version = 0x12 ∧ codec = 0x20 then
        if 32 ≤ (data.drop (n1 + n2)).length then
          some (⟨0, 0x70, 0x12, (data.drop (n1 + n2)).take 32⟩, n1 + n2 + 32)
        else none
      else if version = 1 then
        match mfVarint (data.drop (n1 + n2)) with
        | none => none
        | some (code, n3) =>
          match mfVarint (data.drop (n1 + n2 + n3)) with
          | none => none
          | some (size, n4) =>
            if size ≤ 64 ∧ size ≤ (data.drop (n1 + n2 + n3 + n4)).length then
              some (⟨1, codec, code, (data.drop (n1 + n2 + n3 + n4)).take size⟩,
                n1 + n2 + n3 + n4 + size)
            else none
      else none

/-- Big-endian bit list of one byte. -/
def byteBits (b : Nat) : List Bool :=
  [b.testBit 7, b.testBit 6, b.testBit 5, b.testBit 4, b.testBit 3, b.testBit 2,
    b.testBit 1, b.testBit 0]

/-- Value of a (most-significant-first) bit list. -/
def bitsVal (l : List Bool) : Nat :=
  l.foldl (fun a b => 2 * a + (if b then 1 else 0)) 0

/-- Split a bit stream into 5-bit groups, zero-padding the last one
(RFC 4648 base32). -/
def base32Chunks : List Bool → List Nat
  | b1 :: b2 :: b3 :: b4 :: b5 :: rest => bitsVal [b1, b2, b3, b4, b5] :: base32Chunks rest
  | [] => []
  | l => [bitsVal (l ++ List.replicate (5 - l.length) false)]

/-- RFC 4648 lowercase base32 alphabet. -/
def base32Alphabet : List Char := "abcdefghijklmnopqrstuvwxyz234567".toList

/-- Lowercase unpadded base32 of a byte list (the multibase encoding a
CIDv1 renders as, behind its `b` prefix). -/
def base32Lower (bytes : List Nat) : String :=
  String.mk ((base32Chunks (bytes.map byteBits).flatten).map (fun v => base32Alphabet.getD v 'a'))

/-- Base58btc digit extraction (little-endian), fuel-driven. -/
def natToB58 : Nat → Nat → List Nat
  | 0, _ => []
  | _ + 1, 0 => []
  | fuel + 1, n => n % 58 :: natToB58 fuel (n / 58)

/-- Base58btc alphabet. -/
def base58Alphabet : List Char :=
  "123456789ABCDEFGHJKLMNPQRSTUVWXYZabcdefghijkmnopqrstuvwxyz".toList

/-- Base58btc rendering of a byte list (what a CIDv0 renders as). -/
def base58btc (bytes : List Nat) : String :=
  let n := bytes.foldl (fun a b => a * 256 + b) 0
  let digits := (natToB58 (bytes.length * 2 + 2) n).reverse
  let zeros := (bytes.takeWhile (fun b => b = 0)).length
  String.mk (List.replicate zeros '1' ++ digits.map (fun d => base58Alphabet.getD d '1'))

/-- Binary serialisation of a `Cid` (`Cid::to_bytes`): a v0 identifier
is its bare multihash, a v1 identifier is version, codec and multihash,
all varint-prefixed. -/
def cidToBytes (c : Cid) : List Nat :=
  if c.version = 0 then leb128 c.mhCode ++ leb128 c.mhDigest.length ++ c.mhDigest
  else leb128 c.version ++ leb128 c.codec ++ leb128 c.mhCode ++ leb128 c.mhDigest.length ++
    c.mhDigest

/-- Model of `Cid::to_string` (the canonical text form used as the index
key): base58btc for v0, multibase `b` plus lowercase base32 for v1. -/
def cidToString (c : Cid) : String :=
  if c.version = 0 then base58btc (cidToBytes c) else "b" ++ base32Lower (cidToBytes c)

/-! ## MASL types (car.rs lines 12-45) -/

/-- Embedding of `Resource`: the required `src` plus pass-through
headers (`HashMap<String, String>` as an insert-replace list). -/
structure Resource where
  src : String
  headers : List (String × String)
deriving DecidableEq

/-- Embedding of `Icon`. -/
structure Icon where
  src : String
  sizes : String
  purpose : String
deriving DecidableEq

/-- Embedding of `Masl`. -/
structure Masl where
  name : String
  resources : List (String × Resource)
  icons : List Icon
  description : Option String
  short_name : Option String
  theme_color : Option String
  background_color : Option String
deriving DecidableEq

/-- Insert into an association list with `HashMap::insert` semantics:
replace the entry for an existing key, else append. -/
def insertAssoc {α : Type} : List (String × α) → String → α → List (String × α)
  | [], k, v => [(k, v)]
  | (k0, v0) :: rest, k, v =>
    if k0 = k then (k, v) :: rest else (k0, v0) :: insertAssoc rest k v

/-- Lookup in an association list (`HashMap::get`). -/
def lookupAssoc {α : Type} : List (String × α) → String → Option α
  | [], _ => none
  | (k0, v0) :: rest, k => if k0 = k then some v0 else lookupAssoc rest k

/-- Fold a fallible step over a list, stopping at the first error — the
shape of every `for` loop with `?` in car.rs. -/
def exceptFold {σ α : Type} (step : σ → α → Except String σ) : σ → List α → Except String σ
  | s, [] => .ok s
  | s, a :: rest =>
    match step s a with
    | .error e => .error e
    | .ok s2 => exceptFold step s2 rest

/-- True exactly on `Except.ok`. -/
def exOk {α : Type} : Except String α → Bool
  | .ok _ => true
  | .error _ => false

/-! ## MASL extraction (car.rs lines 140-275) -/

/-- Embedding of `cbor_to_string` (car.rs lines 254-259). -/
def cbor_to_string : CborValue → Option String
  | .Text s => some s
  | _ => none

/-- Embedding of `cbor_to_cid_string` (car.rs lines 262-275): a
`Tag(42, Bytes(b))` link, with a leading `0x00` identity-multibase
marker stripped, decoded by `Cid::try_from` (which reads one identifier
from the front of the slice) and rendered canonically. -/
def cbor_to_cid_string (v : CborValue) : Option String :=
  match v with
  | .Tag t inner =>
    if t = 42 then
      match inner with
      | .Bytes bytes =>
        let raw := if bytes.head? = some 0x00 then bytes.tail else bytes
        (cidReadBytes raw).map (fun p => cidToString p.1)
      | _ => none
    else none
  | _ => none

/-- Loop body of `parse_resource` (car.rs lines 205-215): state is the
mutable `(src, headers)` pair. -/
def resourceFieldStep (st : Option String × List (String × String))
    (kv : CborValue × CborValue) : Except String (Option String × List (String × String)) :=
  let key := (cbor_to_string kv.1).getD ""
  if key = "src" then
    match cbor_to_cid_string kv.2 with
    | none => .error "resource `src` is not a CID"
    | some s => .ok (some s, st.2)
  else
    match cbor_to_string kv.2 with
    | some s => .ok (st.1, insertAssoc st.2 key s)
    | none => .ok st

/-- Embedding of `parse_resource` (car.rs lines 196-221). -/
def parse_resource (v : CborValue) : Except String Resource :=
  match v with
  | .Map m =>
    match exceptFold resourceFieldStep (none, []) m with
    | .error e => .error e
    | .ok (src?, headers) =>
      match src? with
      | some s => .ok ⟨s, headers⟩
      | none => .error "resource missing `src` field"
  | _ => .error "resource entry is not a CBOR map"

/-- Loop body of `parse_resources` (car.rs lines 188-192). -/
def resourcesStep (out : List (String × Resource)) (kv : CborValue × CborValue) :
    Except String (List (String × Resource)) :=
  match cbor_to_string kv.1 with
  | none => .error "resource key is not a string"
  | some path =>
    match parse_resource kv.2 with
    | .error e => .error e
    | .ok r => .ok (insertAssoc out path r)

/-- Embedding of `parse_resources` (car.rs lines 182-194). -/
def parse_resources (v : CborValue) : Except String (List (String × Resource)) :=
  match v with
  | .Map m => exceptFold resourcesStep [] m
  | _ => .error "`resources` is not a CBOR map"

/-- Loop body over one icon map's entries (car.rs lines 237-243): state
is the mutable `(src, sizes, purpose)`. -/
def iconFieldStep (st : Option String × String × String) (kv : CborValue × CborValue) :
    Option String × String × String :=
  let key := (cbor_to_string kv.1).getD ""
  if key = "src" then (cbor_to_string kv.2, st.2.1, st.2.2)
  else if key = "sizes" then (st.1, (cbor_to_string kv.2).getD "", st.2.2)
  else if key = "purpose" then (st.1, st.2.1, (cbor_to_string kv.2).getD "")
  else st

/-- One item of the `parse_icons` loop (car.rs lines 229-248): non-map
items and items without a decoded `src` are skipped. -/
def iconStep (out : List Icon) (item : CborValue) : List Icon :=
  match item with
  | .Map m =>
    match m.foldl iconFieldStep (none, "", "") with
    | (some src, sizes, purpose) => out ++ [⟨src, sizes, purpose⟩]
    | (none, _, _) => out
  | _ => out

/-- Embedding of `parse_icons` (car.rs lines 223-250). -/
def parse_icons (v : CborValue) : Except String (List Icon) :=
  match v with
  | .Array a => .ok (a.foldl iconStep [])
  | _ => .error "`icons` is not a CBOR array"

/-- State of the `parse_masl` loop: the seven mutable locals. -/
structure MaslAcc where
  name : Option String
  resources : List (String × Resource)
  icons : List Icon
  description : Option String
  short_name : Option String
  theme_color : Option String
  background_color : Option String

/-- Initial `parse_masl` loop state (car.rs lines 149-155). -/
def maslInit : MaslAcc := ⟨none, [], [], none, none, none, none⟩

/-- Loop body of `parse_masl` (car.rs lines 157-169): the match on the
text-coerced key, one arm per known field, everything else skipped. -/
def maslStep (acc : MaslAcc) (kv : CborValue × CborValue) : Except String MaslAcc :=
  let key := (cbor_to_string kv.1).getD ""
  if key = "name" then .ok { acc with name := cbor_to_string kv.2 }
  else if key = "description" then .ok { acc with description := cbor_to_string kv.2 }
  else if key = "short_name" then .ok { acc with short_name := cbor_to_string kv.2 }
  else if key = "theme_color" then .ok { acc with theme_color := cbor_to_string kv.2 }
  else if key = "background_color" then
    .ok { acc with background_color := cbor_to_string kv.2 }
  else if key = "resources" then
    match parse_resources kv.2 with
    | .error e => .error e
    | .ok r => .ok { acc with resources := r }
  else if key = "icons" then
    match parse_icons kv.2 with
    | .error e => .error e
    | .ok i => .ok { acc with icons := i }
  else .ok acc

/-- The structural part of `parse_masl` (car.rs lines 144-180), applied
to the already-decoded header document. -/
def parse_masl_value (v : CborValue) : Except String Masl :=
  match v with
  | .Map m =>
    match exceptFold maslStep maslInit m with
    | .error e => .error e
    | .ok acc =>
      match acc.name with
      | some nm =>
        .ok ⟨nm, acc.resources, acc.icons, acc.description, acc.short_name, acc.theme_color,
          acc.background_color⟩
      | none => .error "MASL missing `name` field"
  | _ => .error "CAR header is not a CBOR map"

/-- Embedding of `parse_masl` (car.rs lines 140-180): decode the header
bytes as one CBOR document, then extract. -/
def parse_masl (headerBytes : List Nat) : Except String Masl :=
  match cborDecode headerBytes with
  | none => .error "CBOR decode error"
  | some v => parse_masl_value v

/-! ## Container parsing (car.rs lines 52-136) -/

/-- Embedding of `TileContent` (car.rs lines 52-57): the backing file is
passed to `read_block` as bytes instead of being re-opened by path, so
the `path` field is dropped. -/
structure TileContent where
  masl : Masl
  index : List (String × (Nat × Nat))
deriving DecidableEq

/-- Embedding of `TileContent::read_block` (car.rs lines 61-71), with
the backing file supplied as bytes: a missing index entry is the
"block not found" error; the seek-and-`read_exact` succeeds exactly
when the recorded range lies inside the file (an empty read always
succeeds). -/
def TileContent.read_block (t : TileContent) (file : List Nat) (cidStr : String) :
    Except String (List Nat) :=
  match lookupAssoc t.index cidStr with
  | none => .error ("block not found for CID " ++ cidStr)
  | some (offset, len) =>
    if len = 0 ∨ offset + len ≤ file.length then .ok ((file.drop offset).take len)
    else .error "failed to fill whole buffer"

/-- Block-scan loop of `parse_tile` (car.rs lines 101-129).  Faithful to
release-mode Rust: `pos + block_len` wraps at `2 ^ 64` (usize), and
`block_len as usize - cid_len` wraps on underflow, because
`parse_cid_from_slice` reads from `data[pos..]` — the rest of the file,
not just the block — so `cid_len` can exceed `block_len`.  (A debug
build panics at that subtraction instead.)  The fuel only models the
loop's nontermination when a wrapped `block_end` jumps backwards; every
terminating execution of the Rust loop is reproduced exactly. -/
def parseBlocks (data : List Nat) :
    Nat → List (String × (Nat × Nat)) → Nat → Except String (List (String × (Nat × Nat)))
  | _, _, 0 => .error "model: block scan fuel exhausted"
  | pos, index, fuel + 1 =>
    if pos < data.length then
      match read_uvarint (data.drop pos) with
      | none => .error ("failed to read block varint at pos " ++ toString pos)
      | some (blockLen, n) =>
        let pos2 := pos + n
        if blockLen = 0 then .ok index
        else
          let blockEnd := (pos2 + blockLen) % 2 ^ 64
          if blockEnd > data.length then
            .error ("block extends beyond file at pos " ++ toString pos2)
          else
            match cidReadBytes (data.drop pos2) with
            | none => .error ("failed to parse CID at pos " ++ toString pos2)
            | some (cid, cidLen) =>
              parseBlocks data blockEnd
                (insertAssoc index (cidToString cid)
                  (pos2 + cidLen, (blockLen + 2 ^ 64 - cidLen) % 2 ^ 64)) fuel
    else .ok index

/-- Embedding of `parse_tile` (car.rs lines 78-136), with the file
contents supplied as bytes (`File::open` + `read_to_end` are the
filesystem).  `header_end = pos + header_len` is usize arithmetic, so
it wraps at `2 ^ 64`; when it wraps it slips past the size check and
Rust panics slicing `data[pos..header_end]` with `header_end < pos`
(in a debug build the addition itself panics).  That panic is modelled
as the distinguished error below. -/
def parse_tile (data : List Nat) : Except String TileContent :=
  match read_uvarint data with
  | none => .error "failed to read CAR header varint"
  | some (headerLen, n) =>
    let headerEnd := (n + headerLen) % 2 ^ 64
    if headerEnd > data.length then .error "CAR header length exceeds file size"
    else if headerEnd < n then .error "panic: header slice starts after its end"
    else
      match parse_masl ((data.drop n).take (headerEnd - n)) with
      | .error e => .error e
      | .ok masl =>
        match parseBlocks data headerEnd [] (data.length + 1) with
        | .error e => .error e
        | .ok index => .ok ⟨masl, index⟩

/-! ## Resource resolution (lib.rs lines 61-131) -/

/-- Remove every trailing `/` (Rust `trim_end_matches('/')`). -/
def dropTrailSlashes (s : String) : String :=
  String.mk ((s.toList.reverse.dropWhile (fun c => c = '/')).reverse)

/-- Rust `str::ends_with('/')`, expressed on the character list. -/
def endsWithSlash (s : String) : Bool :=
  decide (s.toList.getLast? = some '/')

/-- The candidate key list of `handle_tile_protocol` (lib.rs lines
90-95), in source order: the path itself; with trailing slashes
trimmed when it ends in one; with a slash appended when it does not
(the Rust `if !path.ends_with('/')` arm); `/index.html` exactly for
the root path. -/
def candidateKeys (path : String) : List String :=
  [path,
    if endsWithSlash path then dropTrailSlashes path else path,
    if endsWithSlash path then path else path ++ "/",
    if path = "/" then "/index.html" else path]

/-- Embedding of the resolution part of `handle_tile_protocol` (lib.rs
lines 68-101): normalise an empty path to `/`, return the resource of
the first candidate present in the manifest resource map, else the
404 "no resource" error. -/
def resolve (resources : List (String × Resource)) (rawPath : String) :
    Except String Resource :=
  let path := if rawPath = "" then "/" else rawPath
  match (candidateKeys path).findSome? (fun p => lookupAssoc resources p) with
  | some r => .ok r
  | none => .error ("no resource at " ++ path)

/-! ## Authority derivation (car.rs lines 312-323) -/

/-- Final path component (the simple-path part of Rust
`Path::file_name`): everything after the last `/`.  Exotic inputs
(trailing separators, `..`) differ from Rust here; no theorem below
depends on them. -/
def fileNameOf (p : List Char) : List Char :=
  (p.reverse.takeWhile (fun c => c ≠ '/')).reverse

/-- Rust `Path::file_stem` on the file name: the whole name if it has
no dot or only a leading dot, otherwise the part before the last dot;
`none` when there is no file name at all. -/
def fileStemOf (p : List Char) : Option (List Char) :=
  let nm := fileNameOf p
  if nm = [] then none
  else
    let revExt := nm.reverse.takeWhile (fun c => c ≠ '.')
    if revExt.length = nm.length then some nm
    else
      let stem := nm.take (nm.length - revExt.length - 1)
      if stem = [] then some nm else some stem

/-- Rust `char::is_ascii_alphanumeric`. -/
def isAsciiAlphanum (c : Char) : Bool :=
  decide ((97 ≤ c.toNat ∧ c.toNat ≤ 122) ∨ (65 ≤ c.toNat ∧ c.toNat ≤ 90) ∨
    (48 ≤ c.toNat ∧ c.toNat ≤ 57))

/-- The per-character map of `authority_from_path`: keep ASCII
alphanumerics and hyphens, turn everything else into a hyphen. -/
def sanitizeChar (c : Char) : Char :=
  if isAsciiAlphanum c ∨ c = '-' then c else '-'

/-- Rust `trim_matches('-')`: drop hyphens from both ends. -/
def trimHyphens (l : List Char) : List Char :=
  ((l.dropWhile (fun c => c = '-')).reverse.dropWhile (fun c => c = '-')).reverse

/-- Embedding of `authority_from_path` (car.rs lines 312-323): take the
file stem (`"tile"` when absent), lower-case it, sanitise each
character, trim hyphens.  `Char.toLower` matches Rust `to_lowercase`
on ASCII; non-ASCII characters whose Unicode lowercase differs are
mapped to `-` by `sanitizeChar` in the model, matching Rust whenever
the lowercase form stays non-alphanumeric. -/
def authority_from_path (path : String) : String :=
  let stem := (fileStemOf path.toList).getD "tile".toList
  String.mk (trimHyphens ((stem.map Char.toLower).map sanitizeChar))

/-! ## Concrete inputs used by the claim theorems -/

/-- A 14-byte container file: header-length varint `0x08`, the CBOR
header `A1 64 "name" 61 "x"` (the map `"name" ↦ "x"`), then a block of
declared length 1 whose single byte `0x01` is followed by `0x00 0x00
0x00` — so the bytes at the block start, `01 00 00 00`, parse as a
valid 4-byte CIDv1 that overruns the 1-byte block span. -/
def c2File : List Nat :=
  [0x08, 0xA1, 0x64, 0x6E, 0x61, 0x6D, 0x65, 0x61, 0x78, 0x01, 0x01, 0x00, 0x00, 0x00]

/-- A 10-byte file whose leading varint decodes (with the 10th-byte
truncation quirk) to the header length `2 ^ 64 - 1` in 10 bytes. -/
def c3File : List Nat :=
  [0xFF, 0xFF, 0xFF, 0xFF, 0xFF, 0xFF, 0xFF, 0xFF, 0xFF, 0x01]

/-- Nine continuation bytes followed by a terminating `0x01`: a minimal
10-byte LEB128 encoding of `2 ^ 63`. -/
def c5Input : List Nat :=
  [0x80, 0x80, 0x80, 0x80, 0x80, 0x80, 0x80, 0x80, 0x80, 0x01]

/-- A 37-byte container file: header-length varint `0x23`, a CBOR
header declaring `name ↦ "x"` and `resources ↦ ("/a" ↦ (src ↦
Tag 42 (Bytes 00 01 55 00 00)))`, then the `0x00` end-of-blocks
marker — so the manifest declares a `src` while the index is empty. -/
def c9File : List Nat :=
  [0x23, 0xA2, 0x64, 0x6E, 0x61, 0x6D, 0x65, 0x61, 0x78, 0x69, 0x72, 0x65, 0x73, 0x6F,
    0x75, 0x72, 0x63, 0x65, 0x73, 0xA1, 0x62, 0x2F, 0x61, 0xA1, 0x63, 0x73, 0x72, 0x63,
    0xD8, 0x2A, 0x45, 0x00, 0x01, 0x55, 0x00, 0x00, 0x00]

/-- The content identifier declared by `c9File`'s single resource:
version 1, codec `0x55` (raw), identity multihash with empty digest. -/
def c9Cid : Cid := ⟨1, 0x55, 0x00, []⟩

/-! ## Claim theorems -/

/-- C1 (counterexample): the claim's own example fails on the code —
`authority_from_path "My Document.tile"` is `"my-document"`, because
the source takes `file_stem` (the base name without its extension) and
maps the period to a hyphen, not `"my-document.tile"`. -/
theorem authority_from_path_extension_counterexample :
    authority_from_path "My Document.tile" = "my-document" ∧
      "my-document" ≠ ("my-document.tile" : String) :=
  ⟨rfl, by decide⟩

/-- C2 (code evaluated at the failing input): `parse_tile` accepts
`c2File` (14 bytes) yet records the index entry `(offset 14, length
2 ^ 64 - 3)`: the CID parsed at the block start runs past the 1-byte
block span, so `block_len - cid_len` underflows (wrapping in a release
build, panicking in a debug build) and the recorded range lies far
outside the file, contradicting the claim that every recorded pair
lies strictly within the file's byte range. -/
theorem parse_tile_index_out_of_range_on_underflow :
    parse_tile c2File =
        .ok ⟨⟨"x", [], [], none, none, none, none⟩,
          [(cidToString ⟨1, 0, 0, []⟩, (14, 2 ^ 64 - 3))]⟩ ∧
      c2File.length = 14 ∧ 14 + (2 ^ 64 - 3) > c2File.length :=
  ⟨rfl, rfl, by decide⟩

/-- C3 (code evaluated at the failing input): on `c3File` the header
varint decodes to `H = 2 ^ 64 - 1` in `n = 10` bytes, so `H` bytes do
not fit in the remaining file — yet `parse_tile` does not return the
"CAR header length exceeds file size" error: `pos + header_len` wraps
to 9, slips past the size check, and the Rust code panics slicing
`data[10..9]` (modelled as the distinguished panic error). -/
theorem parse_tile_header_overflow_panic :
    read_uvarint c3File = some (2 ^ 64 - 1, 10) ∧
      10 + (2 ^ 64 - 1) > c3File.length ∧
      parse_tile c3File = .error "panic: header slice starts after its end" :=
  ⟨by decide, by decide, rfl⟩

/-- C5 (counterexample): a 10-group varint is accepted, not refused —
`read_uvarint` on nine continuation bytes and a terminating `0x01`
consumes all 10 groups (the accumulated shift reaching 63) and returns
`some (2 ^ 63, 10)` instead of the "no value" the claim requires for
more than 9 groups. -/
theorem read_uvarint_ten_group_success_counterexample :
    read_uvarint c5Input = some (2 ^ 63, 10) ∧ c5Input.length = 10 ∧
      read_uvarint c5Input ≠ none :=
  ⟨by decide, rfl, by decide⟩

/-! ## Helper lemmas about the varint codec -/

theorem leb128F_irrel : ∀ (f1 f2 n : Nat), n < f1 → n < f2 → leb128F f1 n = leb128F f2 n := by
  intro f1
  induction f1 with
  | zero => intro f2 n h1; omega
  | succ f1 ih =>
    intro f2 n h1 h2
    match f2, h2 with
    | f2 + 1, _ =>
      by_cases h : n < 128
      · simp [leb128F, h]
      · have hdiv : n / 128 < n := Nat.div_lt_self (by omega) (by omega)
        simp only [leb128F, if_neg h]
        rw [ih f2 (n / 128) (by omega) (by omega)]

theorem leb128F_eq_leb128 (f n : Nat) (h : n < f) : leb128F f n = leb128 n :=
  leb128F_irrel f (n + 1) n h (Nat.lt_succ_self n)

theorem leb128_small {n : Nat} (h : n < 128) : leb128 n = [n] := by
  simp [leb128, leb128F, h]

theorem leb128_large {n : Nat} (h : ¬ n < 128) :
    leb128 n = (n % 128 + 128) :: leb128 (n / 128) := by
  have hdiv : n / 128 < n := Nat.div_lt_self (by omega) (by omega)
  rw [leb128, leb128F, if_neg h, leb128F_eq_leb128 n (n / 128) hdiv]

theorem and_127_eq_mod (x : Nat) : x &&& 127 = x % 128 := by
  have h := Nat.and_pow_two_sub_one_eq_mod x 7
  norm_num at h
  exact h

theorem and_128_of_lt {x : Nat} (h : x < 128) : x &&& 128 = 0 := by
  have h7 : x.testBit 7 = false := Nat.testBit_lt_two_pow (by norm_num; omega)
  have := Nat.and_two_pow x 7
  norm_num [h7] at this
  exact this

theorem and_128_of_ge {x : Nat} (hx : x < 128) : (x + 128) &&& 128 = 128 := by
  have hlow : x.testBit 7 = false := Nat.testBit_lt_two_pow (by norm_num; omega)
  have h7 : (x + 128).testBit 7 = true := by
    have h2 := Nat.testBit_two_pow_add_eq x 7
    norm_num [hlow] at h2
    rw [Nat.add_comm] at h2
    exact h2
  have h3 := Nat.and_two_pow (x + 128) 7
  norm_num [h7] at h3
  exact h3

theorem lor_small_add {acc x s : Nat} (hacc : acc < 2 ^ s) :
    acc ||| x * 2 ^ s = acc + x * 2 ^ s := by
  have h := Nat.mul_add_lt_is_or hacc x
  rw [Nat.lor_comm, Nat.mul_comm]
  omega

/-- Round-trip invariant of the `read_uvarint` loop over a LEB128
encoding: with the accumulator below the current shift's weight and the
remaining value small enough to avoid the 63-bit guard, decoding lands
exactly on `acc + v * 2 ^ shift`. -/
theorem readUvarintAux_leb128 (v : Nat) : ∀ (acc shift cnt : Nat), shift ≤ 63 →
    acc < 2 ^ shift → v * 2 ^ shift < 2 ^ 63 →
    readUvarintAux (leb128 v) acc shift cnt =
      some (acc + v * 2 ^ shift, cnt + (leb128 v).length) := by
  induction v using Nat.strong_induction_on with
  | _ v ih =>
    intro acc shift cnt hshift hacc hv
    by_cases h128 : v < 128
    · rw [leb128_small h128]
      have hand : v &&& 127 = v := by rw [and_127_eq_mod]; omega
      have hand80 : v &&& 128 = 0 := and_128_of_lt h128
      have hsh : v <<< shift = v * 2 ^ shift := Nat.shiftLeft_eq v shift
      have hmod : v * 2 ^ shift % 2 ^ 64 = v * 2 ^ shift :=
        Nat.mod_eq_of_lt (lt_trans hv (by norm_num))
      simp only [readUvarintAux, hand, hsh, hmod]
      rw [if_pos hand80, lor_small_add hacc]
      simp
    · rw [leb128_large h128]
      have hmodlt : v % 128 < 128 := Nat.mod_lt v (by omega)
      have hand : (v % 128 + 128) &&& 127 = v % 128 := by
        rw [and_127_eq_mod, Nat.add_mod_right, Nat.mod_mod_of_dvd _ dvd_rfl]
      have hand80 : (v % 128 + 128) &&& 128 = 128 := and_128_of_ge hmodlt
      have hvs : 2 ^ (shift + 7) ≤ v * 2 ^ shift := by
        rw [Nat.pow_add, Nat.mul_comm (2 ^ shift)]
        exact Nat.mul_le_mul_right _ (by norm_num; omega)
      have hshift7 : shift + 7 < 63 := by
        by_contra hct
        have h1 : (2 : Nat) ^ 63 ≤ 2 ^ (shift + 7) :=
          Nat.pow_le_pow_right (by omega) (by omega)
        omega
      have hmodv : v % 128 * 2 ^ shift < 2 ^ 63 :=
        lt_of_le_of_lt (Nat.mul_le_mul_right _ (Nat.mod_le v 128)) hv
      have hsh : (v % 128) <<< shift = v % 128 * 2 ^ shift := Nat.shiftLeft_eq _ shift
      have hmod : v % 128 * 2 ^ shift % 2 ^ 64 = v % 128 * 2 ^ shift :=
        Nat.mod_eq_of_lt (lt_trans hmodv (by norm_num))
      simp only [readUvarintAux, hand, hsh, hmod]
      rw [if_neg (by rw [hand80]; omega), if_neg (by omega), lor_small_add hacc]
      have hrec := ih (v / 128) (Nat.div_lt_self (by omega) (by omega))
        (acc + v % 128 * 2 ^ shift) (shift + 7) (cnt + 1) (by omega)
        (by
          have h1 : acc + v % 128 * 2 ^ shift < 2 ^ shift + 127 * 2 ^ shift := by
            have : v % 128 * 2 ^ shift ≤ 127 * 2 ^ shift :=
              Nat.mul_le_mul_right _ (by omega)
            omega
          have h2 : (2 : Nat) ^ shift + 127 * 2 ^ shift = 2 ^ (shift + 7) := by
            rw [Nat.pow_add]; ring
          omega)
        (by
          have h1 : v / 128 * 2 ^ (shift + 7) ≤ v * 2 ^ shift := by
            rw [Nat.pow_add]
            calc v / 128 * (2 ^ shift * 2 ^ 7) = v / 128 * 128 * 2 ^ shift := by ring
              _ ≤ v * 2 ^ shift := Nat.mul_le_mul_right _ (Nat.div_mul_le_self v 128)
          omega)
      rw [hrec]
      have hsplit : v % 128 * 2 ^ shift + v / 128 * 2 ^ (shift + 7) = v * 2 ^ shift := by
        rw [Nat.pow_add]
        calc v % 128 * 2 ^ shift + v / 128 * (2 ^ shift * 2 ^ 7)
            = (v % 128 + 128 * (v / 128)) * 2 ^ shift := by ring
          _ = v * 2 ^ shift := by rw [Nat.mod_add_div v 128]
      have hval : acc + v % 128 * 2 ^ shift + v / 128 * 2 ^ (shift + 7) =
          acc + v * 2 ^ shift := by omega
      have hlen : cnt + 1 + (leb128 (v / 128)).length =
          cnt + ((leb128 (v / 128)).length + 1) := by omega
      rw [hval, hlen]
      simp only [List.length_cons]

/-- C4: decoding the LEB128 encoding of any `v < 2 ^ 63` with
`read_uvarint` returns exactly `(v, encodedLength)`. -/
theorem read_uvarint_decodes_leb128 (v : Nat) (hv : v < 2 ^ 63) :
    read_uvarint (leb128 v) = some (v, (leb128 v).length) := by
  have h := readUvarintAux_leb128 v 0 0 0 (by omega) (by norm_num) (by simpa using hv)
  simpa using h

/-- C4 witness: the classic three-byte example `624485`. -/
theorem read_uvarint_decodes_leb128_witness :
    (624485 : Nat) < 2 ^ 63 ∧
      read_uvarint (leb128 624485) = some (624485, (leb128 624485).length) :=
  ⟨by norm_num, read_uvarint_decodes_leb128 624485 (by norm_num)⟩

/-- Failure characterisation of the `read_uvarint` loop, generalised
over the group counter `k` (the loop runs at shift `7 * k`). -/
theorem readUvarintAux_none_iff : ∀ (data : List Nat) (k acc cnt : Nat), k ≤ 9 →
    (readUvarintAux data acc (7 * k) cnt = none ↔
      ∀ i, i < data.length → i < 10 - k → data.getD i 0 &&& 0x80 ≠ 0) := by
  intro data
  induction data with
  | nil => intro k acc cnt hk; simp [readUvarintAux]
  | cons b rest ih =>
    intro k acc cnt hk
    simp only [readUvarintAux]
    by_cases hb : b &&& 0x80 = 0
    · rw [if_pos hb]
      constructor
      · intro h; simp at h
      · intro h
        have h0 := h 0 (by simp) (by omega)
        simp at h0
        exact absurd hb h0
    · rw [if_neg hb]
      by_cases hsh : 7 * k + 7 ≥ 64
      · have hk9 : k = 9 := by omega
        subst hk9
        rw [if_pos hsh]
        constructor
        · intro _ i hi hlt
          have hi0 : i = 0 := by omega
          subst hi0
          simpa using hb
        · intro _; rfl
      · rw [if_neg hsh]
        have h7 : 7 * k + 7 = 7 * (k + 1) := by ring
        rw [h7, ih (k + 1) _ _ (by omega)]
        constructor
        · intro h i hi hlt
          match i with
          | 0 => simpa using hb
          | j + 1 =>
            have := h j (by simpa using hi) (by omega)
            simpa using this
        · intro h i hi hlt
          have := h (i + 1) (by simpa using hi) (by omega)
          simpa using this

/-- C5 (amended): `read_uvarint` returns no value exactly when every
byte among the first `min length 10` has the continuation bit set —
that is, when the buffer ends before a terminating byte, or when a
tenth continuation group would push the shift past 63 bits.  (A
terminating byte anywhere in the first ten positions yields a value;
the counterexample shows a full 10-group decode succeeding.) -/
theorem read_uvarint_failure_characterization (data : List Nat) :
    read_uvarint data = none ↔
      ∀ i, i < data.length → i < 10 → data.getD i 0 &&& 0x80 ≠ 0 := by
  have h := readUvarintAux_none_iff data 0 0 0 (by omega)
  simpa using h

/-- C5 witness: a lone continuation byte (buffer ends early) is
rejected, via the characterisation. -/
theorem read_uvarint_failure_characterization_witness :
    read_uvarint [0x80] = none :=
  (read_uvarint_failure_characterization [0x80]).mpr (by
    intro i hi _
    have hi0 : i = 0 := by simpa using hi
    subst hi0
    decide)

/-! ## Helper lemmas about the manifest extractor -/

theorem exOk_false {α : Type} {x : Except String α} (h : exOk x = false) :
    ∃ msg, x = .error msg := by
  cases x with
  | error e => exact ⟨e, rfl⟩
  | ok a => simp [exOk] at h

theorem getD_key_ne {v : CborValue} {k : String} (hk : k ≠ "") (h : v ≠ CborValue.Text k) :
    (cbor_to_string v).getD "" ≠ k := by
  cases v <;> simp only [cbor_to_string, Option.getD_some, Option.getD_none] <;>
    first
      | exact fun he => hk he.symm
      | (intro heq; exact h (by rw [heq]))

theorem maslStep_name_of_ne {acc acc2 : MaslAcc} {kv : CborValue × CborValue}
    (h : kv.1 ≠ CborValue.Text "name") (hs : maslStep acc kv = .ok acc2) :
    acc2.name = acc.name := by
  have hkey : (cbor_to_string kv.1).getD "" ≠ "name" := getD_key_ne (by decide) h
  simp only [maslStep] at hs
  rw [if_neg hkey] at hs
  repeat' split at hs
  all_goals first
    | (cases hs; rfl)
    | exact (Except.noConfusion hs)

theorem maslFold_name {m : List (CborValue × CborValue)} : ∀ {acc acc2 : MaslAcc},
    exceptFold maslStep acc m = .ok acc2 →
    (∀ kv ∈ m, kv.1 ≠ CborValue.Text "name") → acc2.name = acc.name := by
  induction m with
  | nil =>
    intro acc acc2 h _
    simp only [exceptFold] at h
    cases h
    rfl
  | cons kv rest ih =>
    intro acc acc2 h hmem
    simp only [exceptFold] at h
    cases hstep : maslStep acc kv with
    | error e => rw [hstep] at h; exact (Except.noConfusion h)
    | ok acc1 =>
      rw [hstep] at h
      have h1 := maslStep_name_of_ne (hmem kv (by simp)) hstep
      have h2 := ih h (fun x hx => hmem x (by simp [hx]))
      rw [h2, h1]

theorem exceptFold_error_of_mem {σ α : Type} (step : σ → α → Except String σ) {e : α}
    (hbad : ∀ s, exOk (step s e) = false) :
    ∀ (l : List α), e ∈ l → ∀ s0, exOk (exceptFold step s0 l) = false := by
  intro l
  induction l with
  | nil => intro h; cases h
  | cons a rest ih =>
    intro he s0
    simp only [exceptFold]
    cases hstep : step s0 a with
    | error e2 => simp [exOk]
    | ok s1 =>
      rcases List.mem_cons.mp he with heq | hmem
      · subst heq
        have hb := hbad s0
        rw [hstep] at hb
        simp [exOk] at hb
      · exact ih hmem s1

theorem resourceFold_src {rv : List (CborValue × CborValue)} :
    ∀ st : Option String × List (String × String),
      (∀ kv ∈ rv, kv.1 ≠ CborValue.Text "src") →
      ∃ hs, exceptFold resourceFieldStep st rv = .ok (st.1, hs) := by
  induction rv with
  | nil => intro st _; exact ⟨st.2, by simp [exceptFold]⟩
  | cons kv rest ih =>
    intro st hmem
    have hkey : (cbor_to_string kv.1).getD "" ≠ "src" :=
      getD_key_ne (by decide) (hmem kv (by simp))
    have hstep : ∃ h2, resourceFieldStep st kv = .ok (st.1, h2) := by
      simp only [resourceFieldStep]
      rw [if_neg hkey]
      cases cbor_to_string kv.2 with
      | some s => exact ⟨_, rfl⟩
      | none => exact ⟨st.2, by simp⟩
    obtain ⟨h2, hstep⟩ := hstep
    simp only [exceptFold]
    rw [hstep]
    exact ih (st.1, h2) (fun x hx => hmem x (by simp [hx]))

theorem parse_resource_no_src {rv : List (CborValue × CborValue)}
    (h : ∀ kv ∈ rv, kv.1 ≠ CborValue.Text "src") :
    exOk (parse_resource (.Map rv)) = false := by
  obtain ⟨hs, hfold⟩ := resourceFold_src (none, []) h
  simp only [parse_resource]
  rw [hfold]
  simp [exOk]

theorem resourcesStep_err {k2 : CborValue} {rv : List (CborValue × CborValue)}
    (h : ∀ kv ∈ rv, kv.1 ≠ CborValue.Text "src") (s : List (String × Resource)) :
    exOk (resourcesStep s (k2, CborValue.Map rv)) = false := by
  simp only [resourcesStep]
  cases hk : cbor_to_string k2 with
  | none => simp [exOk]
  | some path =>
    obtain ⟨msg, hmsg⟩ := exOk_false (parse_resource_no_src h)
    simp [hmsg, exOk]

theorem parse_resources_err {rm rv : List (CborValue × CborValue)} {k2 : CborValue}
    (hmem : (k2, CborValue.Map rv) ∈ rm)
    (h : ∀ kv ∈ rv, kv.1 ≠ CborValue.Text "src") :
    exOk (parse_resources (.Map rm)) = false := by
  simp only [parse_resources]
  exact exceptFold_error_of_mem resourcesStep (fun s => resourcesStep_err h s) rm hmem []

theorem maslStep_resources_err {rm : List (CborValue × CborValue)}
    (hres : exOk (parse_resources (.Map rm)) = false) (s : MaslAcc) :
    exOk (maslStep s (CborValue.Text "resources", CborValue.Map rm)) = false := by
  obtain ⟨msg, hmsg⟩ := exOk_false hres
  simp [maslStep, cbor_to_string, hmsg, exOk]

/-- An icons-array item the extractor skips: anything that is not a
map, or a map with no `"src"`-keyed entry. -/
def iconSkippable : CborValue → Prop
  | .Map im => ∀ kv ∈ im, kv.1 ≠ CborValue.Text "src"
  | _ => True

theorem iconFold_src {im : List (CborValue × CborValue)} :
    ∀ st : Option String × String × String,
      (∀ kv ∈ im, kv.1 ≠ CborValue.Text "src") →
      (im.foldl iconFieldStep st).1 = st.1 := by
  induction im with
  | nil => intro st _; rfl
  | cons kv rest ih =>
    intro st hmem
    have hkey : (cbor_to_string kv.1).getD "" ≠ "src" :=
      getD_key_ne (by decide) (hmem kv (by simp))
    simp only [List.foldl_cons]
    rw [ih _ (fun x hx => hmem x (by simp [hx]))]
    simp only [iconFieldStep]
    rw [if_neg hkey]
    split_ifs <;> rfl

theorem iconStep_skip {bad : CborValue} (h : iconSkippable bad) (out : List Icon) :
    iconStep out bad = out := by
  cases bad with
  | Map im =>
    have hsrc : (im.foldl iconFieldStep (none, "", "")).1 = none :=
      iconFold_src _ h
    simp only [iconStep]
    cases hf : im.foldl iconFieldStep (none, "", "") with
    | mk fst snd =>
      rw [hf] at hsrc
      simp only at hsrc
      subst hsrc
      rfl
  | Integer n => rfl
  | Bytes b => rfl
  | Text s => rfl
  | Boolean b => rfl
  | Null => rfl
  | Tag t v => rfl
  | Array a => rfl

theorem exceptFold_append {σ α : Type} (step : σ → α → Except String σ) :
    ∀ (l1 l2 : List α) (s : σ),
      exceptFold step s (l1 ++ l2) =
        match exceptFold step s l1 with
        | .error e => .error e
        | .ok s2 => exceptFold step s2 l2 := by
  intro l1
  induction l1 with
  | nil => intro l2 s; simp [exceptFold]
  | cons a rest ih =>
    intro l2 s
    simp only [List.cons_append, exceptFold]
    cases step s a with
    | error e => rfl
    | ok s2 => exact ih l2 s2

/-- C6: `parse_masl` fails the whole parse when no entry supplies the
mandatory `name`, and when any `resources` entry is a map with no
`src` key; an `icons` array item that is not a map or lacks `src` is
skipped, leaving the remaining icons exactly as if it were absent. -/
theorem parse_masl_mandatory_fields_and_icon_leniency :
    ∀ (m1 m2 rm rv : List (CborValue × CborValue)) (k2 : CborValue)
      (pre post : List CborValue) (bad : CborValue),
      ((∀ kv ∈ m1, kv.1 ≠ CborValue.Text "name") →
        exOk (parse_masl_value (.Map m1)) = false) ∧
      ((CborValue.Text "resources", CborValue.Map rm) ∈ m2 →
        (k2, CborValue.Map rv) ∈ rm →
        (∀ kv ∈ rv, kv.1 ≠ CborValue.Text "src") →
        exOk (parse_masl_value (.Map m2)) = false) ∧
      (iconSkippable bad →
        parse_icons (.Array (pre ++ bad :: post)) = parse_icons (.Array (pre ++ post))) := by
  intro m1 m2 rm rv k2 pre post bad
  refine ⟨?_, ?_, ?_⟩
  · intro h
    simp only [parse_masl_value]
    cases hf : exceptFold maslStep maslInit m1 with
    | error e => simp [exOk]
    | ok acc =>
      have hname := maslFold_name hf h
      simp only [maslInit] at hname
      simp [hname, exOk]
  · intro hm2 hrm hrv
    simp only [parse_masl_value]
    have hres := parse_resources_err hrm hrv
    have hfold :=
      exceptFold_error_of_mem maslStep (maslStep_resources_err hres) m2 hm2 maslInit
    obtain ⟨msg, hmsg⟩ := exOk_false hfold
    simp [hmsg, exOk]
  · intro h
    simp only [parse_icons, List.foldl_append, List.foldl_cons]
    rw [iconStep_skip h]

/-- C6 witness: an empty header map fails (no `name`), a manifest whose
`resources` entry `/a` is an empty map fails, and a skippable icon item
is dropped without affecting the rest. -/
theorem parse_masl_mandatory_fields_and_icon_leniency_witness :
    exOk (parse_masl_value (.Map ([] : List (CborValue × CborValue)))) = false ∧
      exOk (parse_masl_value (.Map [(CborValue.Text "resources",
        CborValue.Map [(CborValue.Text "/a", CborValue.Map [])])])) = false ∧
      parse_icons (.Array [CborValue.Null]) = parse_icons (.Array []) := by
  have h := parse_masl_mandatory_fields_and_icon_leniency []
    [(CborValue.Text "resources", CborValue.Map [(CborValue.Text "/a", CborValue.Map [])])]
    [(CborValue.Text "/a", CborValue.Map [])] [] (CborValue.Text "/a") [] [] CborValue.Null
  refine ⟨h.1 (by simp), h.2.1 (by simp) (by simp) (by simp), h.2.2 trivial⟩

/-- C10: entries of the header map are processed in order and a later
entry for the same recognised key completely replaces the earlier
value: a final `name`/`description` entry decides those fields, and a
final `resources`/`icons` entry decides those, whatever came before. -/
theorem parse_masl_last_occurrence_wins :
    ∀ (m : List (CborValue × CborValue)) (s : String) (rv iv : CborValue)
      (r : List (String × Resource)) (ics : List Icon) (ml : Masl),
      (parse_masl_value (.Map (m ++ [(CborValue.Text "name", CborValue.Text s)])) = .ok ml →
        ml.name = s) ∧
      (parse_masl_value (.Map (m ++ [(CborValue.Text "description", CborValue.Text s)])) =
          .ok ml → ml.description = some s) ∧
      (parse_resources rv = .ok r →
        parse_masl_value (.Map (m ++ [(CborValue.Text "resources", rv)])) = .ok ml →
        ml.resources = r) ∧
      (parse_icons iv = .ok ics →
        parse_masl_value (.Map (m ++ [(CborValue.Text "icons", iv)])) = .ok ml →
        ml.icons = ics) := by
  intro m s rv iv r ics ml
  refine ⟨?_, ?_, ?_, ?_⟩
  · intro h
    simp only [parse_masl_value, exceptFold_append] at h
    cases hf : exceptFold maslStep maslInit m with
    | error e => rw [hf] at h; simp at h
    | ok acc =>
      rw [hf] at h
      simp only [exceptFold, maslStep, cbor_to_string, Option.getD_some] at h
      simp only [reduceIte] at h
      cases h
      rfl
  · intro h
    simp only [parse_masl_value, exceptFold_append] at h
    cases hf : exceptFold maslStep maslInit m with
    | error e => rw [hf] at h; simp at h
    | ok acc =>
      rw [hf] at h
      simp only [exceptFold, maslStep, cbor_to_string, Option.getD_some] at h
      simp only [reduceIte] at h
      cases hn : acc.name with
      | none => rw [hn] at h; simp at h
      | some nm =>
        rw [hn] at h
        cases h
        rfl
  · intro hr h
    simp only [parse_masl_value, exceptFold_append] at h
    cases hf : exceptFold maslStep maslInit m with
    | error e => rw [hf] at h; simp at h
    | ok acc =>
      rw [hf] at h
      simp only [exceptFold, maslStep, cbor_to_string, Option.getD_some] at h
      simp only [reduceIte] at h
      rw [hr] at h
      cases hn : acc.name with
      | none => rw [hn] at h; simp at h
      | some nm =>
        rw [hn] at h
        cases h
        rfl
  · intro hi h
    simp only [parse_masl_value, exceptFold_append] at h
    cases hf : exceptFold maslStep maslInit m with
    | error e => rw [hf] at h; simp at h
    | ok acc =>
      rw [hf] at h
      simp only [exceptFold, maslStep, cbor_to_string, Option.getD_some] at h
      simp only [reduceIte] at h
      rw [hi] at h
      cases hn : acc.name with
      | none => rw [hn] at h; simp at h
      | some nm =>
        rw [hn] at h
        cases h
        rfl

/-- C10 witness: two `name` entries — the later one wins. -/
theorem parse_masl_last_occurrence_wins_witness :
    parse_masl_value (.Map [(CborValue.Text "name", CborValue.Text "a"),
        (CborValue.Text "name", CborValue.Text "b")]) =
      .ok ⟨"b", [], [], none, none, none, none⟩ ∧
      (⟨"b", [], [], none, none, none, none⟩ : Masl).name = "b" := by
  refine ⟨rfl, ?_⟩
  exact (parse_masl_last_occurrence_wins [(CborValue.Text "name", CborValue.Text "a")] "b"
    CborValue.Null CborValue.Null [] [] ⟨"b", [], [], none, none, none, none⟩).1 rfl

/-- C7: content-identifier link decoding succeeds exactly on values of
shape `Tag(42, Bytes b)` whose bytes — after stripping one leading
`0x00` identity-prefix byte when present — parse as a valid content
identifier; every other shape, and invalid remaining bytes, fails. -/
theorem cbor_to_cid_string_shape :
    ∀ v : CborValue,
      (cbor_to_cid_string v).isSome = true ↔
        ∃ b : List Nat, v = CborValue.Tag 42 (CborValue.Bytes b) ∧
          (cidReadBytes (if b.head? = some 0x00 then b.tail else b)).isSome = true := by
  intro v
  cases v
  case Tag t inner =>
    simp only [cbor_to_cid_string]
    by_cases ht : t = 42
    · subst ht
      cases inner with
      | Bytes bytes =>
        rw [if_pos rfl]
        constructor
        · intro h
          refine ⟨bytes, rfl, ?_⟩
          simpa using h
        · rintro ⟨b, heq, hb⟩
          have hbb : bytes = b := by
            injection heq with h1 h2
            injection h2 with h3
          subst hbb
          simpa using hb
      | Integer n => simp [CborValue.Tag.injEq]
      | Text s2 => simp [CborValue.Tag.injEq]
      | Boolean b2 => simp [CborValue.Tag.injEq]
      | Null => simp [CborValue.Tag.injEq]
      | Tag t2 v2 => simp [CborValue.Tag.injEq]
      | Array a2 => simp [CborValue.Tag.injEq]
      | Map m2 => simp [CborValue.Tag.injEq]
    · rw [if_neg ht]
      simp [CborValue.Tag.injEq, ht]
  all_goals
    simp [cbor_to_cid_string]

/-- C7 witness: a minimal valid CIDv1 link is accepted (shown through
the characterisation). -/
theorem cbor_to_cid_string_shape_witness :
    (cbor_to_cid_string (CborValue.Tag 42 (CborValue.Bytes [0x01, 0x55, 0x00, 0x00]))).isSome =
      true :=
  (cbor_to_cid_string_shape _).mpr ⟨[0x01, 0x55, 0x00, 0x00], rfl, rfl⟩

/-- C8: for every non-empty request path, `resolve` returns the
resource of the first hit among exactly these four candidates in this
order — the path as given; the path with trailing `/` removed (when it
ends in one); the path with `/` appended (when it does not); and
`/index.html` exactly when the path is `/` — and fails as "no resource
at path" when none hits.  In particular `/` resolves against a
manifest holding only `/index.html`, while `/foo` fails. -/
theorem resolve_candidate_chain :
    ∀ (res : List (String × Resource)) (path : String) (r : Resource), path ≠ "" →
      (resolve res path =
        match
          [path,
            if endsWithSlash path then dropTrailSlashes path else path,
            if endsWithSlash path then path else path ++ "/",
            if path = "/" then "/index.html" else path].findSome?
            (fun p => lookupAssoc res p) with
        | some x => .ok x
        | none => .error ("no resource at " ++ path)) ∧
      resolve [("/index.html", r)] "/" = .ok r ∧
      resolve [("/index.html", r)] "/foo" = .error "no resource at /foo" := by
  intro res path r hpath
  refine ⟨?_, rfl, rfl⟩
  simp only [resolve, candidateKeys, if_neg hpath]

/-- C8 witness: the fallback-chain equation and both examples at a
concrete resource. -/
theorem resolve_candidate_chain_witness :
    resolve [("/index.html", ⟨"s", []⟩)] "/" = .ok ⟨"s", []⟩ ∧
      resolve [("/index.html", ⟨"s", []⟩)] "/foo" = .error "no resource at /foo" := by
  have h := resolve_candidate_chain [] "/x" ⟨"s", []⟩ (by decide)
  exact ⟨h.2.1, h.2.2⟩

/-- C9: a parse does not check that a declared `src` exists in the
index — `c9File` parses although its only resource's identifier is
absent from the (empty) index — and the failure surfaces only at
block-read time, as `read_block`'s "block not found" error, which is
returned for every identifier missing from the index. -/
theorem missing_src_fails_at_read_block :
    ∀ (t : TileContent) (file : List Nat) (s : String),
      (lookupAssoc t.index s = none →
        t.read_block file s = .error ("block not found for CID " ++ s)) ∧
      (∃ tc, parse_tile c9File = .ok tc ∧
        tc.masl.resources = [("/a", ⟨cidToString c9Cid, []⟩)] ∧
        tc.index = [] ∧
        tc.read_block c9File (cidToString c9Cid) =
          .error ("block not found for CID " ++ cidToString c9Cid)) := by
  intro t file s
  constructor
  · intro h
    simp only [TileContent.read_block, h]
  · exact ⟨⟨⟨"x", [("/a", ⟨cidToString c9Cid, []⟩)], [], none, none, none, none⟩, []⟩,
      rfl, rfl, rfl, rfl⟩

/-- C9 witness: the not-found error at an empty index, through the
theorem's universal part. -/
theorem missing_src_fails_at_read_block_witness :
    TileContent.read_block ⟨⟨"n", [], [], none, none, none, none⟩, []⟩ [] "cid" =
      .error "block not found for CID cid" := by
  have h :=
    (missing_src_fails_at_read_block ⟨⟨"n", [], [], none, none, none, none⟩, []⟩ [] "cid").1 rfl
  exact h

/-! ## Helper lemmas about authority derivation -/

theorem takeWhile_append_stop {α : Type} (p : α → Bool) :
    ∀ (l1 : List α) (a : α) (l2 : List α), (∀ c ∈ l1, p c = true) → p a = false →
      (l1 ++ a :: l2).takeWhile p = l1 := by
  intro l1
  induction l1 with
  | nil =>
    intro a l2 _ ha
    simp [List.takeWhile_cons, ha]
  | cons x t ih =>
    intro a l2 hall ha
    have hx : p x = true := hall x (by simp)
    simp only [List.cons_append, List.takeWhile_cons_of_pos hx]
    rw [ih a l2 (fun c hc => hall c (by simp [hc])) ha]

theorem fileNameOf_no_slash {l : List Char} (h : '/' ∉ l) : fileNameOf l = l := by
  unfold fileNameOf
  rw [List.takeWhile_eq_self_iff.mpr, List.reverse_reverse]
  intro c hc
  have hcl : c ∈ l := List.mem_reverse.mp hc
  simp only [ne_eq, decide_eq_true_eq]
  intro he
  exact h (he ▸ hcl)

theorem fileStemOf_append_ext {stem ext : List Char} (hs : stem ≠ [])
    (hsl : '/' ∉ stem) (hde : '.' ∉ ext) (hel : '/' ∉ ext) :
    fileStemOf (stem ++ '.' :: ext) = some stem := by
  have hnm : fileNameOf (stem ++ '.' :: ext) = stem ++ '.' :: ext := by
    apply fileNameOf_no_slash
    intro hmem
    rcases List.mem_append.mp hmem with h1 | h1
    · exact hsl h1
    · rcases List.mem_cons.mp h1 with h2 | h2
      · exact absurd h2 (by decide)
      · exact hel h2
  have hrev : (stem ++ '.' :: ext).reverse = ext.reverse ++ '.' :: stem.reverse := by
    simp
  have htw : ((stem ++ '.' :: ext).reverse).takeWhile (fun c => c ≠ '.') = ext.reverse := by
    rw [hrev]
    apply takeWhile_append_stop
    · intro c hc
      have : c ∈ ext := List.mem_reverse.mp hc
      simp only [ne_eq, decide_eq_true_eq]
      intro he
      exact hde (he ▸ this)
    · simp
  simp only [fileStemOf]
  rw [hnm, htw, if_neg (by simp)]
  have hlen : ¬ ext.reverse.length = (stem ++ '.' :: ext).length := by
    simp only [List.length_reverse, List.length_append, List.length_cons]
    omega
  rw [if_neg hlen]
  have htake : (stem ++ '.' :: ext).length - ext.reverse.length - 1 = stem.length := by
    simp only [List.length_reverse, List.length_append, List.length_cons]
    omega
  rw [htake, List.take_left, if_neg hs]

theorem fileStemOf_no_dot {stem : List Char} (hs : stem ≠ []) (hds : '.' ∉ stem)
    (hsl : '/' ∉ stem) : fileStemOf stem = some stem := by
  have hnm : fileNameOf stem = stem := fileNameOf_no_slash hsl
  have htw : stem.reverse.takeWhile (fun c => c ≠ '.') = stem.reverse := by
    apply List.takeWhile_eq_self_iff.mpr
    intro c hc
    have : c ∈ stem := List.mem_reverse.mp hc
    simp only [ne_eq, decide_eq_true_eq]
    intro he
    exact hds (he ▸ this)
  simp only [fileStemOf]
  rw [hnm, htw, if_neg hs, if_pos (by simp)]

theorem toNat_ofNat_valid {n : Nat} (h : n.isValidChar) : (Char.ofNat n).toNat = n := by
  unfold Char.ofNat
  rw [dif_pos h]
  rfl

theorem toNat_toLower_not_upper (c : Char) :
    ¬ (65 ≤ (Char.toLower c).toNat ∧ (Char.toLower c).toNat ≤ 90) := by
  simp only [Char.toLower]
  split
  case isTrue h =>
    have hv : (Char.ofNat (c.toNat + 32)).toNat = c.toNat + 32 :=
      toNat_ofNat_valid (Or.inl (by omega))
    rw [hv]
    omega
  case isFalse h =>
    intro hc
    exact h ⟨hc.1, hc.2⟩

/-- The output alphabet the amended C1 claims: lowercase ASCII letter,
ASCII digit, or hyphen. -/
def allowedAuthorityChar (c : Char) : Prop :=
  (97 ≤ c.toNat ∧ c.toNat ≤ 122) ∨ (48 ≤ c.toNat ∧ c.toNat ≤ 57) ∨ c = '-'

theorem sanitize_toLower_allowed (c : Char) :
    allowedAuthorityChar (sanitizeChar (Char.toLower c)) := by
  unfold sanitizeChar
  split
  case isTrue h =>
    rcases h with h | h
    · unfold isAsciiAlphanum at h
      rw [decide_eq_true_eq] at h
      rcases h with h | h | h
      · exact Or.inl h
      · exact absurd h (toNat_toLower_not_upper c)
      · exact Or.inr (Or.inl h)
    · exact Or.inr (Or.inr h)
  case isFalse h => exact Or.inr (Or.inr rfl)

theorem mem_trimHyphens {c : Char} {l : List Char} (h : c ∈ trimHyphens l) : c ∈ l := by
  unfold trimHyphens at h
  rw [List.mem_reverse] at h
  have h1 := (List.dropWhile_sublist _).subset h
  rw [List.mem_reverse] at h1
  exact (List.dropWhile_sublist _).subset h1

theorem dropWhile_head_not {α : Type} (p : α → Bool) :
    ∀ (l : List α) {c : α}, (l.dropWhile p).head? = some c → p c = false := by
  intro l
  induction l with
  | nil => intro c h; simp [List.dropWhile_nil] at h
  | cons a t ih =>
    intro c h
    rw [List.dropWhile_cons] at h
    split at h
    · exact ih h
    · rename_i hpa
      simp only [List.head?_cons, Option.some.injEq] at h
      subst h
      exact Bool.eq_false_iff.mpr hpa

theorem dropWhile_getLast_ne {α : Type} (p : α → Bool) :
    ∀ (l : List α), l.dropWhile p ≠ [] → (l.dropWhile p).getLast? = l.getLast? := by
  intro l
  induction l with
  | nil => intro h; simp [List.dropWhile_nil] at h
  | cons a t ih =>
    intro h
    rw [List.dropWhile_cons] at h ⊢
    by_cases hpa : p a
    · rw [if_pos hpa] at h ⊢
      rw [ih h]
      have ht : t ≠ [] := by
        intro he
        rw [he] at h
        simp [List.dropWhile_nil] at h
      cases t with
      | nil => exact absurd rfl ht
      | cons b t2 => rw [List.getLast?_cons_cons]
    · rw [if_neg hpa]

theorem trimHyphens_head_ne {l : List Char} {c : Char}
    (h : (trimHyphens l).head? = some c) : c ≠ '-' := by
  unfold trimHyphens at h
  rw [List.head?_reverse] at h
  have hne : ((l.dropWhile (fun c => c = '-')).reverse.dropWhile (fun c => c = '-')) ≠ [] := by
    intro he
    rw [he] at h
    simp at h
  rw [dropWhile_getLast_ne _ _ hne, List.getLast?_reverse] at h
  have := dropWhile_head_not _ _ h
  simpa using this

theorem trimHyphens_getLast_ne {l : List Char} {c : Char}
    (h : (trimHyphens l).getLast? = some c) : c ≠ '-' := by
  unfold trimHyphens at h
  rw [List.getLast?_reverse] at h
  have := dropWhile_head_not _ _ h
  simpa using this

/-- C1 (amended): `authority_from_path` takes the file stem — the base
name without its final extension — lower-cases it, maps every character
that is not an ASCII letter, digit or hyphen (periods included) to a
hyphen, and trims leading and trailing hyphens.  Hence the example
derives `"my-document"`; the extension never influences the authority;
and every output consists of lowercase ASCII letters, digits and
hyphens with none at either end. -/
theorem authority_from_path_amended :
    authority_from_path "My Document.tile" = "my-document" ∧
      (∀ stem ext : List Char, stem ≠ [] → '/' ∉ stem → '.' ∉ stem → '/' ∉ ext →
        '.' ∉ ext →
        authority_from_path (String.mk (stem ++ '.' :: ext)) =
          authority_from_path (String.mk stem)) ∧
      (∀ (p : String), ∀ c ∈ (authority_from_path p).toList, allowedAuthorityChar c) ∧
      (∀ p : String, (authority_from_path p).toList.head? ≠ some '-' ∧
        (authority_from_path p).toList.getLast? ≠ some '-') := by
  refine ⟨rfl, ?_, ?_, ?_⟩
  · intro stem ext hs hsl hds hel hde
    unfold authority_from_path
    rw [show (String.mk (stem ++ '.' :: ext)).toList = stem ++ '.' :: ext from rfl,
      show (String.mk stem).toList = stem from rfl,
      fileStemOf_append_ext hs hsl hde hel, fileStemOf_no_dot hs hds hsl]
  · intro p c hc
    unfold authority_from_path at hc
    have hc2 := mem_trimHyphens hc
    obtain ⟨b, hb, hbc⟩ := List.mem_map.mp hc2
    obtain ⟨a, _, hab⟩ := List.mem_map.mp hb
    rw [← hbc, ← hab]
    exact sanitize_toLower_allowed a
  · intro p
    unfold authority_from_path
    constructor
    · intro h
      exact trimHyphens_head_ne h rfl
    · intro h
      exact trimHyphens_getLast_ne h rfl

/-- C1 witness: the amended extension-independence applied at
`doc.tile`. -/
theorem authority_from_path_amended_witness :
    authority_from_path (String.mk ("doc".toList ++ '.' :: "tile".toList)) =
      authority_from_path (String.mk "doc".toList) :=
  authority_from_path_amended.2.1 "doc".toList "tile".toList (by decide) (by decide)
    (by decide) (by decide) (by decide)

end TileSpec
